import Mathlib

/-!
# Verification of the engine support layer excerpt

Shallow embedding of three components of the engine excerpt:

* `VrManager` (src/vr/vr-manager.js): an event-driven registry of VR
  displays.  The JS object `_index` maps a platform display identifier to
  the owned `pc.VrDisplay` wrapper; the wrapper class itself is external to
  the excerpt, and per the spec a wrapper is determined by its platform
  identifier, so we represent a tracked display by its identifier string.
  The index is modelled as the list of registered identifiers (the JS map's
  key set; the stored value is the wrapper for that same key).  We also
  track which wrappers had `destroy()` invoked and whether the
  platform-level listeners are attached, so that teardown claims are
  expressible.  Numbers are modelled as exact rationals throughout the
  file (the JS engine's doubles, and the Float32Array of `quantize`, are
  not modelled at bit level; none of the claims hinge on rounding of the
  store itself).

* `CurveSet` (src/curve-set.ts): a collection of curves with batch
  sampling.  `Curve` and `CurveEvaluator` are external dependencies of the
  excerpt and are modelled from the spec (see their doc comments).

* `Color` (src/core/color.ts): RGBA value type with hex-string
  conversion.  `math.intToBytes24/32` and the JS `parseInt` builtin are
  external and modelled from the spec.
-/

namespace Engine

/-! ## VrManager (src/vr/vr-manager.js) -/

/-- Engine-level notifications fired by the manager that the claims track
(`displayconnect` / `displaydisconnect`, each carrying the display). -/
inductive VrNote where
  | displayconnect (id : String)
  | displaydisconnect (id : String)
  deriving DecidableEq, Repr

/-- The manager's state: `index` is the key set of the JS `_index` map
(the value stored under a key is the display wrapper for that same key),
`displays` is the ordered display list, `display` the primary display,
`attached` whether the window listeners are registered, and `destroyed`
records every wrapper on which `destroy()` was invoked. -/
structure VrState where
  index : List String
  displays : List String
  display : Option String
  attached : Bool
  destroyed : List String
  deriving DecidableEq, Repr

/-- The state right after the constructor ran (empty registry, listeners
attached by `_attach`). -/
def initVr : VrState :=
  { index := [], displays := [], display := none,
    attached := true, destroyed := [] }

/-- `VrManager._addDisplay`: if the identifier is already indexed, return;
otherwise create a wrapper, index it, push it onto the list, make it
primary if there is no primary yet, and fire `displayconnect`.  Returns
the new state together with the list of fired notifications. -/
def addDisplay (s : VrState) (id : String) : VrState × List VrNote :=
  if id ∈ s.index then
    (s, [])
  else
    ({ s with
        index := id :: s.index,
        displays := s.displays ++ [id],
        display := match s.display with
          | none => some id
          | some d => some d },
      [VrNote.displayconnect id])

/-- `VrManager._onDisplayDisconnect`: unknown identifier is a no-op;
otherwise the wrapper is destroyed, deleted from the index, spliced out of
the list at `indexOf` (JS `splice(-1, 1)` removes the last element when
`indexOf` misses, which we model faithfully), the primary is reassigned to
the new head of the list (or null) if the removed display was primary, and
`displaydisconnect` fires. -/
def onDisplayDisconnect (s : VrState) (id : String) : VrState × List VrNote :=
  if id ∈ s.index then
    let displays1 := if id ∈ s.displays then s.displays.erase id
                     else s.displays.dropLast
    ({ s with
        index := s.index.erase id,
        displays := displays1,
        display := if s.display = some id then displays1.head? else s.display,
        destroyed := s.destroyed ++ [id] },
      [VrNote.displaydisconnect id])
  else
    (s, [])

/-- `VrManager.destroy`: calls `_detach`, which only removes the two
window event listeners. -/
def destroyVr (s : VrState) : VrState :=
  { s with attached := false }

/-- A platform connect/disconnect event delivered to the manager. -/
inductive VrEvent where
  | connect (id : String)
  | disconnect (id : String)
  deriving DecidableEq, Repr

/-- One delivered platform event (state part only). -/
def stepVr (s : VrState) (e : VrEvent) : VrState :=
  match e with
  | VrEvent.connect id => (addDisplay s id).1
  | VrEvent.disconnect id => (onDisplayDisconnect s id).1

/-- The manager state after a sequence of platform events, starting from
the freshly constructed empty registry. -/
def runVr (es : List VrEvent) : VrState :=
  es.foldl stepVr initVr

/-- The registry invariant maintained by the manager: the primary display
is the head of the ordered list, the index and the list hold the same
identifiers, and neither has duplicates. -/
def VrInv (s : VrState) : Prop :=
  s.display = s.displays.head? ∧ s.index.Nodup ∧ s.displays.Nodup ∧
    ∀ id, id ∈ s.index ↔ id ∈ s.displays

/-! ## CurveSet (src/curve-set.ts) -/

/-- Modelled from the spec: `Curve` is an external dependency of the
excerpt — "ordered sequence of (time, value) keyframe pairs, sorted by
time; an interpolation-mode tag", exposing `value(time)`.  Only the
evaluation function is observable by the claims, so a curve is modelled
by it. -/
structure Curve where
  value : ℚ → ℚ

/-- A default curve (what `new Curve()` with no keys evaluates to is
irrelevant to the claims; used only as the `getD` default). -/
def zeroCurve : Curve := ⟨fun _ => 0⟩

/-- `CurveSet`: ordered collection of curves plus the shared
interpolation-mode tag (the tag's numeric value is external to the
excerpt and unused by the claims). -/
structure CurveSet where
  curves : List Curve
  curveType : ℤ

/-- `CurveSet.get`: `return this.curves[index]` — JS array indexing, which
yields the element in range and `undefined` (modelled `none`) out of
range. -/
def CurveSet.get (cs : CurveSet) (index : Nat) : Option Curve :=
  cs.curves[index]?

/-- `CurveSet.value`: evaluates every curve at `time` in curve order (the
optional output buffer only recycles storage; the returned contents are
the same either way). -/
def CurveSet.value (cs : CurveSet) (time : ℚ) : List ℚ :=
  cs.curves.map (fun c => c.value time)

/-- Modelled from the spec: `CurveEvaluator` is an external dependency —
"stateful sampler that walks a curve's keyframes efficiently for repeated
monotonic queries".  An evaluator implementation is a state type, an
initial state per curve (`new CurveEvaluator(curve)`), and a stateful
`evaluate` returning the sample and the updated state. -/
structure EvaluatorModel where
  S : Type
  reset : Curve → S
  evaluate : Curve → S → ℚ → ℚ × S

/-- Run one evaluator over a list of query times, threading the state. -/
def runQueries (m : EvaluatorModel) (c : Curve) : m.S → List ℚ → List ℚ
  | _, [] => []
  | s, t :: ts =>
      let p := m.evaluate c s t
      p.1 :: runQueries m c p.2 ts

/-- An evaluator implementation is stateless-equivalent for monotonic
queries: started fresh on a curve and queried at any non-decreasing
sequence of times it returns exactly `Curve.value` at each time. -/
def EvaluatorModel.MonotoneFaithful (m : EvaluatorModel) : Prop :=
  ∀ (c : Curve) (ts : List ℚ), ts.Chain' (· ≤ ·) →
    runQueries m c (m.reset c) ts = ts.map c.value

/-- Modelled from the spec: the concrete `CurveEvaluator` of the engine —
its state caches the previous query position to avoid re-scanning the
keyframe list, and its observable output "must produce numerically
identical results" to `Curve.value`. -/
def curveEvaluatorModel : EvaluatorModel :=
  { S := ℚ, reset := fun _ => 0, evaluate := fun c _ t => (c.value t, t) }

/-- The sample times of `quantize`: `precision` raised to at least 2,
`step = 1/(precision-1)`, times `step*i` for `i = 0..precision-1`. -/
def sampleTimes (precision0 : Nat) : List ℚ :=
  (List.range (max precision0 2)).map
    (fun (i : ℕ) => (1 / (((max precision0 2 : ℕ) : ℚ) - 1)) * (i : ℚ))

/-- `CurveSet.quantize` parametrized by the evaluator implementation: for
each curve a fresh evaluator is queried at the sample times in increasing
order, the results landing at `values[i*numCurves + c]`.  The flat table
is assembled row by row, which fills exactly the same positions as the
source's column-by-column array writes. -/
def quantizeWith (m : EvaluatorModel) (cs : CurveSet) (precision0 : Nat) :
    List ℚ :=
  (List.range (max precision0 2)).flatMap
    (fun i =>
      (cs.curves.map
          (fun c => runQueries m c (m.reset c) (sampleTimes precision0))).map
        (fun col => col.getD i 0))

/-- `CurveSet.quantize`: the source instantiates the external
`CurveEvaluator`. -/
def CurveSet.quantize (cs : CurveSet) (precision : Nat) : List ℚ :=
  quantizeWith curveEvaluatorModel cs precision

/-- The same table built by independent `Curve.value` calls at the same
sample times (the spec's description of what the table must contain). -/
def quantizeByValue (cs : CurveSet) (precision0 : Nat) : List ℚ :=
  (sampleTimes precision0).flatMap (fun t => cs.value t)

/-- `CurveSet.quantizeClamped`: quantize, then clamp each entry in place
with `Math.min(max, Math.max(min, v))`. -/
def CurveSet.quantizeClamped (cs : CurveSet) (precision : Nat)
    (lo hi : ℚ) : List ℚ :=
  (cs.quantize precision).map (fun v => min hi (max lo v))

/-- The identity curve, used in concrete witnesses. -/
def curveA : Curve := ⟨fun t => t⟩

/-- An affine curve, used in concrete witnesses. -/
def curveB : Curve := ⟨fun t => 2 * t + 1⟩

/-- A concrete two-curve set used by the witnesses. -/
def csW : CurveSet := ⟨[curveA, curveB], 1⟩

/-! ## Color (src/core/color.ts) -/

/-- JS `Math.round`: round half toward positive infinity. -/
def jsRound (q : ℚ) : ℤ := ⌊q + 1 / 2⌋

/-- RGBA color (the four numeric channel fields). -/
structure Color where
  r : ℚ
  g : ℚ
  b : ℚ
  a : ℚ
  deriving DecidableEq, Repr

/-- The lowercase hex digit character for `n < 16`, as produced by JS
`Number.prototype.toString(16)`. -/
def hexDigitChar (n : Nat) : Char :=
  if n < 10 then Char.ofNat (48 + n) else Char.ofNat (87 + n)

/-- Hex rendering of a natural number, most significant digit first;
`fuel` bounds the digit count. -/
def hexCharsAux : Nat → Nat → List Char
  | 0, _ => []
  | fuel + 1, n =>
      if n < 16 then [hexDigitChar n]
      else hexCharsAux fuel (n / 16) ++ [hexDigitChar (n % 16)]

/-- JS `Number.prototype.toString(16)` for natural numbers (20 hex digits
cover every JS-safe integer, in particular everything produced here). -/
def natToHexChars (n : Nat) : List Char :=
  hexCharsAux 20 n

/-- `Color.toString`: renders `'#'` plus the hex string of
`(1<<24) + (round(r*255)<<16) + (round(g*255)<<8) + round(b*255)` with
its leading digit sliced off; when `alpha` is true appends the hex string
of `round(a*255)`, prefixed with `'0'` exactly when `a < 16/255`.  The JS
shifts-and-adds coincide with this integer arithmetic whenever the
rounded channel bytes lie in `[0, 255]`, which is the regime of every
claim (`Int.toNat` carries the non-negative results to `ℕ`). -/
def Color.toString (c : Color) (alpha : Bool) : String :=
  let n : ℤ := 2 ^ 24 + jsRound (c.r * 255) * 2 ^ 16 +
    jsRound (c.g * 255) * 2 ^ 8 + jsRound (c.b * 255)
  let s : List Char := '#' :: (natToHexChars n.toNat).drop 1
  if alpha = true then
    let astr : List Char := natToHexChars (jsRound (c.a * 255)).toNat
    if c.a < 16 / 255 then String.mk (s ++ '0' :: astr)
    else String.mk (s ++ astr)
  else String.mk s

/-- Hex digit test of JS `parseInt(·, 16)`. -/
def isHexDigit (ch : Char) : Bool :=
  (('0' ≤ ch) && (ch ≤ '9')) || (('a' ≤ ch) && (ch ≤ 'f')) ||
    (('A' ≤ ch) && (ch ≤ 'F'))

/-- Numeric value of a hex digit character (either case). -/
def hexDigitVal (ch : Char) : Nat :=
  if ch ≤ '9' then ch.toNat - 48
  else if ch ≤ 'F' then ch.toNat - 55
  else ch.toNat - 87

/-- `parseInt` digit loop: consume hex digits until the first
non-digit. -/
def parseHexAux : List Char → Nat → Nat
  | [], acc => acc
  | ch :: rest, acc =>
      if isHexDigit ch then parseHexAux rest (acc * 16 + hexDigitVal ch)
      else acc

/-- The digit phase of JS `parseInt(s, 16)`: the maximal run of leading
hex digits, `none` (NaN) if there is none. -/
def jsParseIntDigits : List Char → Option Nat
  | [] => none
  | ch :: rest =>
      if isHexDigit ch then some (parseHexAux (ch :: rest) 0) else none

/-- JS `parseInt(s, 16)`, modelling the builtin on inputs without leading
whitespace or sign (all `fromString` ever feeds it): strip an optional
`0x`/`0X` prefix, then parse the maximal run of leading hex digits;
`none` is NaN. -/
def jsParseInt16 (s : List Char) : Option Nat :=
  match s with
  | a :: b :: rest =>
      if a = '0' ∧ (b = 'x' ∨ b = 'X') then jsParseIntDigits rest
      else jsParseIntDigits s
  | _ => jsParseIntDigits s

/-- JS `String.prototype.replace('#', '0x')`: replace only the first
occurrence. -/
def replaceHash : List Char → List Char
  | [] => []
  | ch :: rest =>
      if ch = '#' then '0' :: 'x' :: rest else ch :: replaceHash rest

/-- Modelled from the spec: `math.intToBytes32` (the external `math`
module) — the big-endian bytes of the 32-bit truncation of the integer,
which is what the JS bitwise shifts produce. -/
def intToBytes32 (i : Nat) : List Nat :=
  [i % 2 ^ 32 / 2 ^ 24 % 2 ^ 8, i % 2 ^ 32 / 2 ^ 16 % 2 ^ 8,
    i % 2 ^ 32 / 2 ^ 8 % 2 ^ 8, i % 2 ^ 32 % 2 ^ 8]

/-- Modelled from the spec: `math.intToBytes24` — the big-endian low
three bytes of the 32-bit truncation. -/
def intToBytes24 (i : Nat) : List Nat :=
  [i % 2 ^ 32 / 2 ^ 16 % 2 ^ 8, i % 2 ^ 32 / 2 ^ 8 % 2 ^ 8,
    i % 2 ^ 32 % 2 ^ 8]

/-- `Color.fromString`: `parseInt(hex.replace('#', '0x'), 16)`, then a
24-bit or 32-bit byte decomposition selected on the *original* string's
length (alpha byte 255 in the 24-bit case), each byte divided by 255.
JS bitwise operators coerce NaN to 0, so a failed parse decomposes 0.
The source mutates its receiver through `set`, which overwrites all four
fields, so the result does not depend on the prior state and is modelled
as a constructor. -/
def Color.fromString (hex : String) : Color :=
  let i : Nat := (jsParseInt16 (replaceHash hex.data)).getD 0
  let bytes : List Nat :=
    if hex.length > 7 then intToBytes32 i else intToBytes24 i ++ [255]
  { r := (bytes.getD 0 0 : ℚ) / 255, g := (bytes.getD 1 0 : ℚ) / 255,
    b := (bytes.getD 2 0 : ℚ) / 255, a := (bytes.getD 3 0 : ℚ) / 255 }

/-- The big-endian numeric value of a list of hex digit characters. -/
def hexListVal (l : List Char) : Nat :=
  l.foldl (fun acc ch => acc * 16 + hexDigitVal ch) 0

/-! ## Theorems: VrManager -/

theorem vrInv_init : VrInv initVr := by
  refine ⟨rfl, List.nodup_nil, List.nodup_nil, ?_⟩
  intro id
  simp [initVr]

theorem vrInv_addDisplay (s : VrState) (id : String) (h : VrInv s) :
    VrInv (addDisplay s id).1 := by
  obtain ⟨hprim, hnodupI, hnodupD, hmem⟩ := h
  by_cases hin : id ∈ s.index
  · simpa [addDisplay, hin] using ⟨hprim, hnodupI, hnodupD, hmem⟩
  · have hinD : id ∉ s.displays := fun hd => hin ((hmem id).2 hd)
    refine ⟨?_, ?_, ?_, ?_⟩ <;> simp only [addDisplay, hin, if_neg, ite_false]
    · cases hd : s.displays with
      | nil =>
          have : s.display = none := by
            rw [hprim, hd]; rfl
          simp [this, hd]
      | cons d t =>
          have : s.display = some d := by
            rw [hprim, hd]; rfl
          simp [this, hd]
    · exact List.Nodup.cons hin hnodupI
    · rw [List.nodup_append]
      exact ⟨hnodupD, List.nodup_singleton id, by
        intro a ha hb
        simp only [List.mem_singleton] at hb
        exact hinD (hb ▸ ha)⟩
    · intro x
      constructor
      · intro hx
        rcases List.mem_cons.mp hx with hx | hx
        · exact List.mem_append.mpr (Or.inr (hx ▸ List.mem_singleton.mpr rfl))
        · exact List.mem_append.mpr (Or.inl ((hmem x).1 hx))
      · intro hx
        rcases List.mem_append.mp hx with hx | hx
        · exact List.mem_cons.mpr (Or.inr ((hmem x).2 hx))
        · exact List.mem_cons.mpr (Or.inl (List.mem_singleton.mp hx))

theorem vrInv_onDisplayDisconnect (s : VrState) (id : String) (h : VrInv s) :
    VrInv (onDisplayDisconnect s id).1 := by
  obtain ⟨hprim, hnodupI, hnodupD, hmem⟩ := h
  by_cases hin : id ∈ s.index
  · have hinD : id ∈ s.displays := (hmem id).1 hin
    refine ⟨?_, ?_, ?_, ?_⟩ <;>
      simp only [onDisplayDisconnect, hin, hinD, if_pos, ite_true]
    · by_cases hpd : s.display = some id
      · simp [hpd]
      · simp only [hpd, ite_false]
        cases hd : s.displays with
        | nil => exact absurd (hd ▸ hinD) (List.not_mem_nil id)
        | cons d t =>
            have hdisp : s.display = some d := by
              rw [hprim, hd]; rfl
            have hne : ¬((d == id) = true) := by
              simp only [beq_iff_eq]
              intro hdi
              exact hpd (hdi ▸ hdisp)
            rw [hdisp, List.erase_cons_tail hne]
            rfl
    · exact hnodupI.erase id
    · exact hnodupD.erase id
    · intro x
      rw [List.Nodup.mem_erase_iff hnodupI, List.Nodup.mem_erase_iff hnodupD]
      exact and_congr_right fun _ => hmem x
  · simpa [onDisplayDisconnect, hin] using ⟨hprim, hnodupI, hnodupD, hmem⟩

theorem vrInv_step (s : VrState) (e : VrEvent) (h : VrInv s) :
    VrInv (stepVr s e) := by
  cases e with
  | connect id => exact vrInv_addDisplay s id h
  | disconnect id => exact vrInv_onDisplayDisconnect s id h

theorem vrInv_foldl (es : List VrEvent) :
    ∀ s : VrState, VrInv s → VrInv (es.foldl stepVr s) := by
  induction es with
  | nil => intro s h; exact h
  | cons e es ih =>
      intro s h
      exact ih (stepVr s e) (vrInv_step s e h)

theorem vrInv_run (es : List VrEvent) : VrInv (runVr es) :=
  vrInv_foldl es initVr vrInv_init

/-- C1: for every sequence of connect and disconnect events processed from
the freshly constructed empty registry, the primary display equals the
first element of the ordered display list whenever that list is non-empty,
and is null whenever the list is empty. -/
theorem primary_is_head (es : List VrEvent) :
    ((runVr es).displays ≠ [] →
        (runVr es).display = (runVr es).displays.head?) ∧
      ((runVr es).displays = [] → (runVr es).display = none) := by
  have h := (vrInv_run es).1
  exact ⟨fun _ => h, fun he => by rw [h, he]; rfl⟩

/-- Witness for C1 at the concrete event sequence
connect A, connect B, disconnect A (the list is non-empty there, and the
primary is its head). -/
theorem primary_is_head_witness :
    (runVr [VrEvent.connect ("A"), VrEvent.connect ("B"),
        VrEvent.disconnect ("A")]).display =
      (runVr [VrEvent.connect ("A"), VrEvent.connect ("B"),
        VrEvent.disconnect ("A")]).displays.head? :=
  (primary_is_head [VrEvent.connect ("A"), VrEvent.connect ("B"),
      VrEvent.disconnect ("A")]).1 (by decide)

/-- C2: a connect event for an identifier already present in the index is
a no-op — the whole state (index, list, primary, everything else) is
unchanged and no notification is fired. -/
theorem addDisplay_idempotent (s : VrState) (id : String)
    (h : id ∈ s.index) : addDisplay s id = (s, []) := by
  simp [addDisplay, h]

/-- Witness for C2: connecting `"A"` twice — the second `_addDisplay` call
leaves the state untouched and fires nothing. -/
theorem addDisplay_idempotent_witness :
    addDisplay (runVr [VrEvent.connect ("A")]) ("A") =
      (runVr [VrEvent.connect ("A")], []) :=
  addDisplay_idempotent (runVr [VrEvent.connect ("A")]) ("A") (by decide)

/-- C3: a disconnect event for an unknown identifier is a no-op (state
unchanged, nothing fired); for a known identifier the display is removed
from both the index and the ordered list and a single `displaydisconnect`
notification carrying that display is fired.  Stated over every state the
manager can actually be in (any event sequence from construction). -/
theorem disconnect_spec (es : List VrEvent) (id : String) :
    (id ∉ (runVr es).index →
        onDisplayDisconnect (runVr es) id = (runVr es, [])) ∧
      (id ∈ (runVr es).index →
        id ∉ (onDisplayDisconnect (runVr es) id).1.index ∧
          id ∉ (onDisplayDisconnect (runVr es) id).1.displays ∧
          (onDisplayDisconnect (runVr es) id).2 =
            [VrNote.displaydisconnect id]) := by
  obtain ⟨_, hnodupI, hnodupD, hmem⟩ := vrInv_run es
  constructor
  · intro hout
    simp [onDisplayDisconnect, hout]
  · intro hin
    have hinD : id ∈ (runVr es).displays := (hmem id).1 hin
    refine ⟨?_, ?_, ?_⟩ <;>
      simp only [onDisplayDisconnect, hin, hinD, if_pos, ite_true]
    · exact fun hc => ((List.Nodup.mem_erase_iff hnodupI).1 hc).1 rfl
    · exact fun hc => ((List.Nodup.mem_erase_iff hnodupD).1 hc).1 rfl

/-- Witness for C3: after connecting `"A"`, disconnecting the unknown
`"B"` is a no-op, and disconnecting the known `"A"` removes it from index
and list and fires `displaydisconnect`. -/
theorem disconnect_spec_witness :
    onDisplayDisconnect (runVr [VrEvent.connect ("A")]) ("B") =
        (runVr [VrEvent.connect ("A")], []) ∧
      ("A" ∉ (onDisplayDisconnect (runVr [VrEvent.connect ("A")]) ("A")).1.index ∧
        "A" ∉ (onDisplayDisconnect (runVr [VrEvent.connect ("A")]) ("A")).1.displays ∧
        (onDisplayDisconnect (runVr [VrEvent.connect ("A")]) ("A")).2 =
          [VrNote.displaydisconnect ("A")]) :=
  ⟨(disconnect_spec [VrEvent.connect ("A")] ("B")).1 (by decide),
    (disconnect_spec [VrEvent.connect ("A")] ("A")).2 (by decide)⟩

/-- C10: `destroy()` only detaches the platform-level listeners; the
index, the ordered display list, the primary reference are unchanged and
no tracked display is destroyed. -/
theorem destroy_only_detaches (s : VrState) :
    (destroyVr s).index = s.index ∧
      (destroyVr s).displays = s.displays ∧
      (destroyVr s).display = s.display ∧
      (destroyVr s).destroyed = s.destroyed ∧
      (destroyVr s).attached = false :=
  ⟨rfl, rfl, rfl, rfl, rfl⟩

/-! ## Theorems: CurveSet -/

theorem runQueries_curveEvaluatorModel (c : Curve) (s : ℚ) (ts : List ℚ) :
    runQueries curveEvaluatorModel c s ts = ts.map c.value := by
  induction ts generalizing s with
  | nil => rfl
  | cons t ts ih =>
      have hstep : runQueries curveEvaluatorModel c s (t :: ts) =
          c.value t :: runQueries curveEvaluatorModel c t ts := rfl
      rw [hstep, ih, List.map_cons]

theorem curveEvaluatorModel_monotoneFaithful :
    curveEvaluatorModel.MonotoneFaithful := by
  intro c ts _
  exact runQueries_curveEvaluatorModel c _ ts

theorem sampleTimes_eq_map (precision0 : Nat) :
    sampleTimes precision0 =
      (List.range (max precision0 2)).map
        (fun (i : ℕ) => (1 / (((max precision0 2 : ℕ) : ℚ) - 1)) * (i : ℚ)) :=
  rfl

theorem sampleTimes_length (precision0 : Nat) :
    (sampleTimes precision0).length = max precision0 2 := by
  simp [sampleTimes]

theorem sampleTimes_getElem? (precision0 i : Nat)
    (hi : i < max precision0 2) :
    (sampleTimes precision0)[i]? =
      some ((1 / (((max precision0 2 : ℕ) : ℚ) - 1)) * (i : ℚ)) := by
  simp [sampleTimes, List.getElem?_range hi]

/-- Generic shape of the quantization table once every column is known to
be the `Curve.value` samples. -/
theorem quantizeWith_eq_byValue (m : EvaluatorModel) (cs : CurveSet)
    (precision0 : Nat)
    (h : ∀ c ∈ cs.curves,
      runQueries m c (m.reset c) (sampleTimes precision0) =
        (sampleTimes precision0).map c.value) :
    quantizeWith m cs precision0 = quantizeByValue cs precision0 := by
  unfold quantizeWith quantizeByValue
  conv_rhs => rw [sampleTimes_eq_map]
  rw [List.flatMap_map]
  apply List.flatMap_congr
  intro i hi
  rw [List.mem_range] at hi
  rw [List.map_map]
  simp only [Function.comp_apply, CurveSet.value]
  apply List.map_congr_left
  intro c hc
  simp only [Function.comp_apply]
  rw [h c hc, List.getD_eq_getElem?_getD, List.getElem?_map,
    sampleTimes_getElem? precision0 i hi]
  rfl

/-- The sample times form a non-decreasing sequence (the step is
non-negative because the effective precision is at least 2). -/
theorem sampleTimes_chain' (precision0 : Nat) :
    (sampleTimes precision0).Chain' (· ≤ ·) := by
  rw [sampleTimes_eq_map, List.chain'_map]
  obtain ⟨n, hn⟩ : ∃ n, max precision0 2 = n + 1 :=
    ⟨max precision0 2 - 1, by omega⟩
  rw [hn]
  rw [List.chain'_range_succ]
  intro m _
  have hstep : (0 : ℚ) ≤ 1 / (((n + 1 : ℕ) : ℚ) - 1) := by
    apply div_nonneg zero_le_one
    have h2 : (2 : ℕ) ≤ n + 1 := hn ▸ le_max_right precision0 2
    have h2q : (2 : ℚ) ≤ ((n + 1 : ℕ) : ℚ) := by
      exact_mod_cast h2
    linarith
  apply mul_le_mul_of_nonneg_left _ hstep
  exact_mod_cast Nat.le_succ m

/-- C5: for every evaluator implementation satisfying the
stateless-equivalence-for-monotone-queries hypothesis, the table produced
by the stateful quantization loop is numerically identical to the table
of independent `Curve.value` samples at the same times. -/
theorem quantizeWith_faithful (m : EvaluatorModel)
    (hm : m.MonotoneFaithful) (cs : CurveSet) (precision : Nat) :
    quantizeWith m cs precision = quantizeByValue cs precision :=
  quantizeWith_eq_byValue m cs precision fun c _ =>
    hm c (sampleTimes precision) (sampleTimes_chain' precision)

/-- Witness for C5: the engine's own evaluator model on a two-curve set
at precision 3. -/
theorem quantizeWith_faithful_witness :
    quantizeWith curveEvaluatorModel csW 3 = quantizeByValue csW 3 :=
  quantizeWith_faithful curveEvaluatorModel
    curveEvaluatorModel_monotoneFaithful csW 3

/-- The engine's `quantize` equals the independent-sample table
unconditionally (the modelled evaluator is faithful). -/
theorem quantize_eq_byValue (cs : CurveSet) (precision : Nat) :
    cs.quantize precision = quantizeByValue cs precision :=
  quantizeWith_faithful curveEvaluatorModel
    curveEvaluatorModel_monotoneFaithful cs precision

theorem flatMap_length_const {α β : Type} (ts : List α) (f : α → List β)
    (n : Nat) (hn : ∀ t ∈ ts, (f t).length = n) :
    (ts.flatMap f).length = ts.length * n := by
  induction ts with
  | nil => simp
  | cons t ts ih =>
      rw [List.flatMap_cons, List.length_append, hn t (by simp),
        ih (fun u hu => hn u (by simp [hu])), List.length_cons]
      ring

theorem flatMap_getD {α β : Type} (ts : List α) (f : α → List β) (n : Nat)
    (d : β) (hn : ∀ t ∈ ts, (f t).length = n) (i c : Nat)
    (hi : i < ts.length) (hc : c < n) :
    (ts.flatMap f).getD (i * n + c) d = (f ts[i]).getD c d := by
  induction ts generalizing i with
  | nil => simp at hi
  | cons t ts ih =>
      rw [List.flatMap_cons]
      cases i with
      | zero =>
          have hlen : (f t).length = n := hn t (by simp)
          have hcl : c < (f t).length := by omega
          rw [Nat.zero_mul, Nat.zero_add, List.getD_eq_getElem?_getD,
            List.getElem?_append_left hcl, ← List.getD_eq_getElem?_getD]
          rfl
      | succ j =>
          have hlen : (f t).length = n := hn t (by simp)
          have hidx : (j + 1) * n + c = n + (j * n + c) := by ring
          rw [hidx, List.getD_eq_getElem?_getD,
            List.getElem?_append_right (by omega),
            hlen, Nat.add_sub_cancel_left, ← List.getD_eq_getElem?_getD]
          have hj : j < ts.length := by
            simpa using Nat.lt_of_succ_lt_succ hi
          rw [ih (fun u hu => hn u (by simp [hu])) j hj]
          rfl

theorem value_length (cs : CurveSet) (t : ℚ) :
    (cs.value t).length = cs.curves.length := by
  simp [CurveSet.value]

theorem sampleTimes_getElem (precision i : Nat)
    (hi : i < (sampleTimes precision).length) :
    (sampleTimes precision)[i] =
      (1 / (((max precision 2 : ℕ) : ℚ) - 1)) * (i : ℚ) := by
  have hi' : i < max precision 2 := by
    rwa [sampleTimes_length] at hi
  have h := sampleTimes_getElem? precision i hi'
  rw [List.getElem?_eq_getElem hi] at h
  exact Option.some.inj h

/-- The value of the quantization table at row `i`, column `c`. -/
theorem quantize_getD (cs : CurveSet) (precision : Nat) (i c : Nat)
    (hi : i < max precision 2) (hc : c < cs.curves.length) :
    (cs.quantize precision).getD (i * cs.curves.length + c) 0 =
      (cs.curves[c]).value
        ((1 / (((max precision 2 : ℕ) : ℚ) - 1)) * (i : ℚ)) := by
  rw [quantize_eq_byValue]
  unfold quantizeByValue
  have hi' : i < (sampleTimes precision).length := by
    rw [sampleTimes_length]; exact hi
  rw [flatMap_getD (sampleTimes precision) _ cs.curves.length 0
    (fun t _ => value_length cs t) i c hi' hc]
  rw [sampleTimes_getElem precision i hi']
  unfold CurveSet.value
  rw [List.getD_eq_getElem?_getD, List.getElem?_map,
    List.getElem?_eq_getElem hc]
  rfl

/-- C4: `quantize` raises `precision` to at least 2, and with `p` the
raised precision and `n` the curve count, the table has length `p * n`,
its entry at `i*n + c` is curve `c` sampled at time `i * (1/(p-1))`,
`quantize 1` and `quantize 2` coincide, and the last-row entry at column
`c` is `curves[c].value 1`. -/
theorem quantize_table (cs : CurveSet) (precision : Nat) :
    (cs.quantize precision).length = max precision 2 * cs.curves.length ∧
      (∀ (i c : Nat), i < max precision 2 → ∀ hc : c < cs.curves.length,
        (cs.quantize precision).getD (i * cs.curves.length + c) 0 =
          (cs.curves[c]).value
            ((i : ℚ) * (1 / (((max precision 2 : ℕ) : ℚ) - 1)))) ∧
      cs.quantize 1 = cs.quantize 2 ∧
      (∀ c : Nat, ∀ hc : c < cs.curves.length,
        (cs.quantize precision).getD
            ((max precision 2 - 1) * cs.curves.length + c) 0 =
          (cs.curves[c]).value 1) := by
  refine ⟨?_, ?_, rfl, ?_⟩
  · rw [quantize_eq_byValue]
    unfold quantizeByValue
    rw [flatMap_length_const (sampleTimes precision) _ cs.curves.length
      (fun t _ => value_length cs t), sampleTimes_length]
  · intro i c hi hc
    rw [quantize_getD cs precision i c hi hc, mul_comm]
  · intro c hc
    have hi : max precision 2 - 1 < max precision 2 := by omega
    rw [quantize_getD cs precision (max precision 2 - 1) c hi hc]
    congr 1
    have h2 : 2 ≤ max precision 2 := le_max_right _ _
    have hcast : ((max precision 2 - 1 : ℕ) : ℚ) =
        ((max precision 2 : ℕ) : ℚ) - 1 := by
      push_cast [Nat.cast_sub (by omega : 1 ≤ max precision 2)]
      ring
    rw [hcast]
    have hne : ((max precision 2 : ℕ) : ℚ) - 1 ≠ 0 := by
      have : (2 : ℚ) ≤ ((max precision 2 : ℕ) : ℚ) := by exact_mod_cast h2
      intro hz
      rw [sub_eq_zero] at hz
      rw [hz] at this
      norm_num at this
    rw [one_div, inv_mul_cancel₀ hne]

/-- Witness for C4 at the two-curve set `csW` and precision 3. -/
theorem quantize_table_witness :
    (csW.quantize 3).length = max 3 2 * csW.curves.length ∧
      (csW.quantize 3).getD (2 * csW.curves.length + 1) 0 =
        (csW.curves[1]).value
          ((2 : ℚ) * (1 / (((max 3 2 : ℕ) : ℚ) - 1))) ∧
      csW.quantize 1 = csW.quantize 2 ∧
      (csW.quantize 3).getD
          ((max 3 2 - 1) * csW.curves.length + 1) 0 =
        (csW.curves[1]).value 1 :=
  ⟨(quantize_table csW 3).1,
    (quantize_table csW 3).2.1 2 1 (by decide) (by decide),
    (quantize_table csW 3).2.2.1,
    (quantize_table csW 3).2.2.2 1 (by decide)⟩

/-- C6 counterexample: with `min = 1 > 0 = max` the clamped entries
(`Math.min(max, Math.max(min, v))` always returns `max` there) do not lie
in the empty interval `[min, max]`, so the claim's universally quantified
membership consequence fails. -/
theorem quantizeClamped_range_counterexample :
    ¬ (∀ x ∈ csW.quantizeClamped 2 1 0, (1 : ℚ) ≤ x ∧ x ≤ 0) := by
  intro h
  have h0 : (0 : ℚ) ∈ csW.quantizeClamped 2 1 0 := by
    have he : csW.quantizeClamped 2 1 0 = [0, 0, 0, 0] := by
      norm_num [CurveSet.quantizeClamped, CurveSet.quantize, quantizeWith,
        sampleTimes, csW, curveA, curveB, runQueries_curveEvaluatorModel,
        List.range_succ]
    rw [he]
    simp
  have := (h 0 h0).1
  norm_num at this

/-- C6 amended: `quantizeClamped` equals `quantize` with every entry
clamped by `min hi (max lo ·)`; provided `lo ≤ hi`, every entry of the
result lies in `[lo, hi]`; and at every position whose unclamped value
already lies in `[lo, hi]` the two tables agree. -/
theorem quantizeClamped_spec (cs : CurveSet) (precision : Nat)
    (lo hi : ℚ) :
    cs.quantizeClamped precision lo hi =
        (cs.quantize precision).map (fun v => min hi (max lo v)) ∧
      (lo ≤ hi → ∀ x ∈ cs.quantizeClamped precision lo hi,
        lo ≤ x ∧ x ≤ hi) ∧
      (∀ (k : Nat) (x : ℚ), (cs.quantize precision)[k]? = some x →
        lo ≤ x → x ≤ hi →
        (cs.quantizeClamped precision lo hi)[k]? = some x) := by
  refine ⟨rfl, ?_, ?_⟩
  · intro hlohi x hx
    obtain ⟨v, _, rfl⟩ := List.mem_map.1 hx
    exact ⟨le_min hlohi (le_max_left lo v), min_le_left hi _⟩
  · intro k x hk hlo hhi
    unfold CurveSet.quantizeClamped
    rw [List.getElem?_map, hk]
    have : min hi (max lo x) = x := by
      rw [max_eq_right hlo, min_eq_right hhi]
    rw [Option.map_some', this]

/-- Witness for C6 at `csW`, precision 3, range [0, 10]; the position-0
entry of the table is 0 and is preserved. -/
theorem quantizeClamped_spec_witness :
    csW.quantizeClamped 3 0 10 =
        (csW.quantize 3).map (fun v => min (10 : ℚ) (max 0 v)) ∧
      (∀ x ∈ csW.quantizeClamped 3 0 10, (0 : ℚ) ≤ x ∧ x ≤ 10) ∧
      (csW.quantizeClamped 3 0 10)[0]? = some 0 :=
  ⟨(quantizeClamped_spec csW 3 0 10).1,
    (quantizeClamped_spec csW 3 0 10).2.1 (by norm_num),
    (quantizeClamped_spec csW 3 0 10).2.2 0 0
      (by
        norm_num [CurveSet.quantize, quantizeWith, sampleTimes, csW,
          curveA, curveB, runQueries_curveEvaluatorModel, List.range_succ])
      (by norm_num) (by norm_num)⟩

/-- C7 counterexample: at the out-of-range index 5 of a two-curve set,
`get` does not signal any error — the JS `return this.curves[index]`
silently yields `undefined` (modelled `none`), contradicting the claim
that an out-of-range index fails as a hard caller error. -/
theorem get_out_of_range_silent : csW.get 5 = none := rfl

/-- C7 amended: `get` returns the curve at the index when it is in range,
and silently returns `undefined` (no exception is raised) when it is out
of range. -/
theorem get_spec (cs : CurveSet) (index : Nat) :
    (∀ h : index < cs.curves.length,
        cs.get index = some (cs.curves[index])) ∧
      (cs.curves.length ≤ index → cs.get index = none) := by
  constructor
  · intro h
    rw [CurveSet.get, List.getElem?_eq_getElem h]
  · intro h
    rw [CurveSet.get, List.getElem?_eq_none h]

/-- Witness for C7 at `csW` with in-range index 1 and out-of-range
index 5. -/
theorem get_spec_witness :
    csW.get 1 = some (csW.curves[1]) ∧ csW.get 5 = none :=
  ⟨(get_spec csW 1).1 (by decide), (get_spec csW 5).2 (by decide)⟩

/-! ## Theorems: Color -/

/-- Evaluation of `toString(true)` at the boundary alpha `31/510`
(`= 15.5/255`): the rounded alpha byte is 16 (hex `"10"`, two digits) yet
the pad condition `a < 16/255` still holds, so a `'0'` is prepended and
the alpha field has three digits. -/
theorem toString_bug_eval :
    Color.toString ⟨1, 1, 1, 31 / 510⟩ true = ("#ffffff010") := by
  have hr : jsRound ((1 : ℚ) * 255) = 255 := by
    unfold jsRound
    norm_num
  have ha : jsRound ((31 : ℚ) / 510 * 255) = 16 := by
    unfold jsRound
    norm_num
  simp only [Color.toString, hr, ha]
  rw [if_pos (by norm_num : (31 : ℚ) / 510 < 16 / 255)]
  decide

/-- C8: the code contradicts its own documented `'#RRGGBBAA'` format.
For alpha channels in `[15.5/255, 16/255)` — e.g. `a = 31/510` — the
rounded alpha byte is `16` (hex `"10"`, two digits) yet the pad condition
`a < 16/255` still holds, so a `'0'` is prepended and the alpha field has
three digits: `toString(true)` yields `"#ffffff010"` (ten characters, a
three-digit alpha field) instead of a two-digit alpha byte. -/
theorem toString_alpha_field_three_digits :
    Color.toString ⟨1, 1, 1, 31 / 510⟩ true = ("#ffffff010") :=
  toString_bug_eval

theorem hexDigitVal_hexDigitChar :
    ∀ d : Nat, d < 16 → hexDigitVal (hexDigitChar d) = d := by decide

theorem isHexDigit_hexDigitChar :
    ∀ d : Nat, d < 16 → isHexDigit (hexDigitChar d) = true := by decide

theorem hexFoldl_shift (l : List Char) (acc : Nat) :
    l.foldl (fun a ch => a * 16 + hexDigitVal ch) acc =
      acc * 16 ^ l.length + hexListVal l := by
  induction l generalizing acc with
  | nil => simp [hexListVal]
  | cons ch l ih =>
      rw [List.foldl_cons, ih]
      have h2 : hexListVal (ch :: l) =
          hexDigitVal ch * 16 ^ l.length + hexListVal l := by
        have hdef : hexListVal (ch :: l) =
            List.foldl (fun a u => a * 16 + hexDigitVal u)
              (0 * 16 + hexDigitVal ch) l := rfl
        rw [hdef, ih]
        ring
      rw [List.length_cons, h2]
      ring

theorem hexListVal_cons (ch : Char) (l : List Char) :
    hexListVal (ch :: l) = hexDigitVal ch * 16 ^ l.length + hexListVal l := by
  have hdef : hexListVal (ch :: l) =
      List.foldl (fun a u => a * 16 + hexDigitVal u)
        (0 * 16 + hexDigitVal ch) l := rfl
  rw [hdef, hexFoldl_shift]
  ring

theorem hexListVal_append (l₁ l₂ : List Char) :
    hexListVal (l₁ ++ l₂) =
      hexListVal l₁ * 16 ^ l₂.length + hexListVal l₂ := by
  unfold hexListVal
  rw [List.foldl_append]
  exact hexFoldl_shift l₂ _

theorem hexListVal_lt (l : List Char)
    (h : ∀ ch ∈ l, hexDigitVal ch < 16) :
    hexListVal l < 16 ^ l.length := by
  induction l with
  | nil => simp [hexListVal]
  | cons ch l ih =>
      rw [hexListVal_cons, List.length_cons, pow_succ]
      have hch : hexDigitVal ch < 16 := h ch (by simp)
      have hl : hexListVal l < 16 ^ l.length :=
        ih fun u hu => h u (by simp [hu])
      nlinarith [pow_pos (by norm_num : 0 < 16) l.length]

theorem hexCharsAux_val (fuel : Nat) :
    ∀ n : Nat, n < 16 ^ fuel → hexListVal (hexCharsAux fuel n) = n := by
  induction fuel with
  | zero =>
      intro n hn
      interval_cases n
      simp [hexCharsAux, hexListVal]
  | succ fuel ih =>
      intro n hn
      by_cases hsmall : n < 16
      · rw [hexCharsAux, if_pos hsmall, hexListVal_cons]
        simp [hexListVal, hexDigitVal_hexDigitChar n hsmall]
      · rw [hexCharsAux, if_neg hsmall, hexListVal_append]
        have hdiv : n / 16 < 16 ^ fuel := by
          rw [Nat.div_lt_iff_lt_mul (by norm_num)]
          calc n < 16 ^ (fuel + 1) := hn
            _ = 16 ^ fuel * 16 := by ring
        rw [ih (n / 16) hdiv]
        have hmod : n % 16 < 16 := Nat.mod_lt n (by norm_num)
        simp only [List.length_singleton, pow_one]
        rw [show hexListVal [hexDigitChar (n % 16)] = n % 16 by
          simp [hexListVal, hexDigitVal_hexDigitChar (n % 16) hmod]]
        omega

theorem hexCharsAux_isHex (fuel : Nat) :
    ∀ n : Nat, ∀ ch ∈ hexCharsAux fuel n, isHexDigit ch = true := by
  induction fuel with
  | zero => intro n ch hch; simp [hexCharsAux] at hch
  | succ fuel ih =>
      intro n ch hch
      by_cases hsmall : n < 16
      · rw [hexCharsAux, if_pos hsmall] at hch
        simp only [List.mem_singleton] at hch
        exact hch ▸ isHexDigit_hexDigitChar n hsmall
      · rw [hexCharsAux, if_neg hsmall] at hch
        rcases List.mem_append.1 hch with hch | hch
        · exact ih (n / 16) ch hch
        · simp only [List.mem_singleton] at hch
          exact hch ▸
            isHexDigit_hexDigitChar (n % 16) (Nat.mod_lt n (by norm_num))

theorem hexCharsAux_digits_lt (fuel : Nat) :
    ∀ n : Nat, ∀ ch ∈ hexCharsAux fuel n, hexDigitVal ch < 16 := by
  induction fuel with
  | zero => intro n ch hch; simp [hexCharsAux] at hch
  | succ fuel ih =>
      intro n ch hch
      by_cases hsmall : n < 16
      · rw [hexCharsAux, if_pos hsmall] at hch
        simp only [List.mem_singleton] at hch
        rw [hch, hexDigitVal_hexDigitChar n hsmall]
        exact hsmall
      · rw [hexCharsAux, if_neg hsmall] at hch
        rcases List.mem_append.1 hch with hch | hch
        · exact ih (n / 16) ch hch
        · simp only [List.mem_singleton] at hch
          have hmod : n % 16 < 16 := Nat.mod_lt n (by norm_num)
          rw [hch, hexDigitVal_hexDigitChar (n % 16) hmod]
          exact hmod

theorem hexCharsAux_length (k : Nat) :
    ∀ fuel n : Nat, 16 ^ k ≤ n → n < 16 ^ (k + 1) → k + 1 ≤ fuel →
      (hexCharsAux fuel n).length = k + 1 := by
  induction k with
  | zero =>
      intro fuel n _ hn hfuel
      obtain ⟨fuel', rfl⟩ : ∃ f, fuel = f + 1 :=
        ⟨fuel - 1, by omega⟩
      rw [hexCharsAux, if_pos (by simpa using hn)]
      rfl
  | succ k ih =>
      intro fuel n hk hn hfuel
      obtain ⟨fuel', rfl⟩ : ∃ f, fuel = f + 1 :=
        ⟨fuel - 1, by omega⟩
      have hbig : ¬ n < 16 := by
        have h16 : (16 : Nat) ≤ 16 ^ (k + 1) :=
          Nat.le_self_pow (by omega) 16
        omega
      rw [hexCharsAux, if_neg hbig, List.length_append,
        List.length_singleton]
      have hdivk : 16 ^ k ≤ n / 16 := by
        rw [Nat.le_div_iff_mul_le (by norm_num)]
        calc 16 ^ k * 16 = 16 ^ (k + 1) := by ring
          _ ≤ n := hk
      have hdivn : n / 16 < 16 ^ (k + 1) := by
        rw [Nat.div_lt_iff_lt_mul (by norm_num)]
        calc n < 16 ^ (k + 2) := hn
          _ = 16 ^ (k + 1) * 16 := by ring
      rw [ih fuel' (n / 16) hdivk hdivn (by omega)]

theorem parseHexAux_all_hex (l : List Char) (acc : Nat)
    (h : ∀ ch ∈ l, isHexDigit ch = true) :
    parseHexAux l acc =
      l.foldl (fun a ch => a * 16 + hexDigitVal ch) acc := by
  induction l generalizing acc with
  | nil => rfl
  | cons ch l ih =>
      rw [parseHexAux, if_pos (h ch (by simp)), List.foldl_cons]
      exact ih _ fun u hu => h u (by simp [hu])

theorem parseHexAux_eq_hexListVal (l : List Char)
    (h : ∀ ch ∈ l, isHexDigit ch = true) :
    parseHexAux l 0 = hexListVal l := by
  rw [parseHexAux_all_hex l 0 h]
  rfl

theorem jsRound_byte_bounds (x : ℚ) (h0 : 0 ≤ x) (h1 : x ≤ 1) :
    0 ≤ jsRound (x * 255) ∧ jsRound (x * 255) ≤ 255 := by
  unfold jsRound
  constructor
  · rw [Int.le_floor]
    push_cast
    linarith
  · have hlt : ⌊x * 255 + 1 / 2⌋ < 256 := by
      rw [Int.floor_lt]
      push_cast
      linarith
    omega

theorem hexCharsAux_small (fuel n : Nat) (h : n < 16) (hf : 1 ≤ fuel) :
    hexCharsAux fuel n = [hexDigitChar n] := by
  obtain ⟨f, rfl⟩ : ∃ f, fuel = f + 1 := ⟨fuel - 1, by omega⟩
  rw [hexCharsAux, if_pos h]

theorem natToHexChars_small (n : Nat) (h : n < 16) :
    natToHexChars n = [hexDigitChar n] :=
  hexCharsAux_small 20 n h (by norm_num)

/-- For `16^6 ≤ N < 2·16^6` the hex string of `N` is seven digits whose
tail (the JS `slice(1)`) is six hex digits of value `N - 16^6`. -/
theorem natToHexChars_rgb (N : Nat) (h1 : 16 ^ 6 ≤ N)
    (h2 : N < 2 * 16 ^ 6) :
    ((natToHexChars N).drop 1).length = 6 ∧
      hexListVal ((natToHexChars N).drop 1) = N - 16 ^ 6 ∧
      ∀ ch ∈ (natToHexChars N).drop 1, isHexDigit ch = true := by
  have hlen : (natToHexChars N).length = 7 := by
    have := hexCharsAux_length 6 20 N h1 (by norm_num at h2 ⊢; omega)
      (by norm_num)
    simpa [natToHexChars] using this
  have hval : hexListVal (natToHexChars N) = N := by
    have := hexCharsAux_val 20 N (by norm_num at h2 ⊢; omega)
    simpa [natToHexChars] using this
  cases hc : natToHexChars N with
  | nil => rw [hc] at hlen; simp at hlen
  | cons ch tail =>
      rw [hc] at hlen hval
      simp only [List.length_cons] at hlen
      have htlen : tail.length = 6 := by omega
      rw [hexListVal_cons, htlen] at hval
      have hdlt : ∀ u ∈ tail, hexDigitVal u < 16 := by
        intro u hu
        have humem : u ∈ hexCharsAux 20 N := by
          rw [show hexCharsAux 20 N = natToHexChars N from rfl, hc]
          exact List.mem_cons_of_mem ch hu
        exact hexCharsAux_digits_lt 20 N u humem
      have htv : hexListVal tail < 16 ^ 6 := by
        have := hexListVal_lt tail hdlt
        rwa [htlen] at this
      simp only [List.drop_succ_cons, List.drop_zero]
      refine ⟨htlen, ?_, ?_⟩
      · have e6 : (16 : ℕ) ^ 6 = 16777216 := by norm_num
        rw [e6] at hval htv h1 h2 ⊢
        omega
      · intro u hu
        have humem : u ∈ hexCharsAux 20 N := by
          rw [show hexCharsAux 20 N = natToHexChars N from rfl, hc]
          exact List.mem_cons_of_mem ch hu
        exact hexCharsAux_isHex 20 N u humem

/-- Big-endian recomposition: the spec-modelled `intToBytes32` inverts
the byte packing. -/
theorem intToBytes32_of_bytes (rN gN bN aN : Nat)
    (hr : rN < 256) (hg : gN < 256) (hb : bN < 256) (ha : aN < 256) :
    intToBytes32 ((rN * 2 ^ 16 + gN * 2 ^ 8 + bN) * 2 ^ 8 + aN) =
      [rN, gN, bN, aN] := by
  unfold intToBytes32
  norm_num
  refine ⟨?_, ?_, ?_, ?_⟩ <;> omega

/-- Parsing the strings `toString` emits: a `'#'` head replaced by `0x`,
six hex digits of the RGB payload, and a two-digit alpha field. -/
theorem fromString_mk_bytes (rgb6 af : List Char) (rN gN bN aN : Nat)
    (hr : rN < 256) (hg : gN < 256) (hb : bN < 256) (ha : aN < 256)
    (hrgblen : rgb6.length = 6)
    (hrgbval : hexListVal rgb6 = rN * 2 ^ 16 + gN * 2 ^ 8 + bN)
    (hrgbhex : ∀ ch ∈ rgb6, isHexDigit ch = true)
    (haflen : af.length = 2) (hafval : hexListVal af = aN)
    (hafhex : ∀ ch ∈ af, isHexDigit ch = true) :
    Color.fromString (String.mk ('#' :: (rgb6 ++ af))) =
      { r := (rN : ℚ) / 255, g := (gN : ℚ) / 255,
        b := (bN : ℚ) / 255, a := (aN : ℚ) / 255 } := by
  obtain ⟨c0, rgb5, rfl⟩ : ∃ c0 rgb5, rgb6 = c0 :: rgb5 := by
    cases rgb6 with
    | nil => simp at hrgblen
    | cons c0 r => exact ⟨c0, r, rfl⟩
  have hall : ∀ ch ∈ (c0 :: rgb5) ++ af, isHexDigit ch = true := by
    intro ch hch
    rcases List.mem_append.1 hch with h | h
    exacts [hrgbhex ch h, hafhex ch h]
  have hrep : replaceHash ('#' :: ((c0 :: rgb5) ++ af)) =
      '0' :: 'x' :: ((c0 :: rgb5) ++ af) := by
    rw [replaceHash, if_pos rfl]
  have hparse : jsParseInt16 (replaceHash ('#' :: ((c0 :: rgb5) ++ af))) =
      some (hexListVal ((c0 :: rgb5) ++ af)) := by
    rw [hrep, jsParseInt16]
    rw [if_pos ⟨rfl, Or.inl rfl⟩]
    rw [List.cons_append, jsParseIntDigits, if_pos (hrgbhex c0 (by simp))]
    rw [← List.cons_append, parseHexAux_eq_hexListVal _ hall]
  have hlen9 : (String.mk ('#' :: ((c0 :: rgb5) ++ af))).length = 9 := by
    simp only [String.length_mk, List.length_cons, List.length_append]
    simp only [List.length_cons] at hrgblen
    omega
  have hvaltot : hexListVal ((c0 :: rgb5) ++ af) =
      (rN * 2 ^ 16 + gN * 2 ^ 8 + bN) * 2 ^ 8 + aN := by
    rw [hexListVal_append, hrgbval, hafval, haflen]
    norm_num
  simp only [Color.fromString]
  rw [hparse, hlen9]
  rw [if_pos (by norm_num : (9 : ℕ) > 7)]
  rw [Option.getD_some, hvaltot, intToBytes32_of_bytes rN gN bN aN hr hg hb ha]
  rfl

theorem jsRound_byte (k : ℕ) : jsRound ((k : ℚ) / 255 * 255) = k := by
  unfold jsRound
  have he : (k : ℚ) / 255 * 255 = k := by
    rw [div_mul_cancel₀]
    norm_num
  rw [he, Int.floor_eq_iff]
  constructor
  · push_cast
    linarith
  · push_cast
    linarith

/-- C9 counterexample: at the color `(1, 1, 1, 31/510)` — all channels in
`[0, 1]` — the round trip does not merely quantize: the malformed
ten-character string `"#ffffff010"` produced by the alpha-pad bug parses
to a value above `2^32`, whose 32-bit truncation corrupts the blue and
alpha bytes, so `fromString (toString c true)` is not the channel-wise
`round(x*255)/255` quantization of `c` (the blue channel comes back as
`240/255`, not `1`). -/
theorem roundTrip_quantization_counterexample :
    Color.fromString (Color.toString ⟨1, 1, 1, 31 / 510⟩ true) ≠
      { r := ((jsRound ((1 : ℚ) * 255)).toNat : ℚ) / 255,
        g := ((jsRound ((1 : ℚ) * 255)).toNat : ℚ) / 255,
        b := ((jsRound ((1 : ℚ) * 255)).toNat : ℚ) / 255,
        a := ((jsRound ((31 / 510 : ℚ) * 255)).toNat : ℚ) / 255 } := by
  intro heq
  rw [toString_bug_eval] at heq
  have h1 : (jsParseInt16 (replaceHash (("#ffffff010")).data)).getD 0 =
      68719472656 := by decide
  have h3 : (("#ffffff010")).length = 10 := rfl
  have hfs : Color.fromString ("#ffffff010") =
      { r := ((255 : ℕ) : ℚ) / 255, g := ((255 : ℕ) : ℚ) / 255,
        b := ((240 : ℕ) : ℚ) / 255, a := ((16 : ℕ) : ℚ) / 255 } := by
    simp only [Color.fromString, h1, h3]
    rw [if_pos (by norm_num : (10 : ℕ) > 7)]
    rw [show intToBytes32 68719472656 = [255, 255, 240, 16] from by decide]
    rfl
  rw [hfs] at heq
  have hb := congrArg Color.b heq
  simp only at hb
  rw [show jsRound ((1 : ℚ) * 255) = 255 from by unfold jsRound; norm_num,
    show (255 : ℤ).toNat = 255 from rfl] at hb
  norm_num at hb

/-- C9 amended: with every channel in `[0, 1]` and the alpha channel
outside the pad-bug window `[15.5/255, 16/255)`, parsing the string
produced by `toString(true)` yields the original color with every channel
quantized to `round(channel*255)/255`; in particular colors whose
channels are all of the form `k/255` with integer `k ≤ 255` round-trip to
a field-wise equal color. -/
theorem fromString_toString_roundTrip :
    (∀ c : Color, 0 ≤ c.r → c.r ≤ 1 → 0 ≤ c.g → c.g ≤ 1 →
      0 ≤ c.b → c.b ≤ 1 → 0 ≤ c.a → c.a ≤ 1 →
      ¬(31 / 510 ≤ c.a ∧ c.a < 16 / 255) →
      Color.fromString (Color.toString c true) =
        { r := ((jsRound (c.r * 255)).toNat : ℚ) / 255,
          g := ((jsRound (c.g * 255)).toNat : ℚ) / 255,
          b := ((jsRound (c.b * 255)).toNat : ℚ) / 255,
          a := ((jsRound (c.a * 255)).toNat : ℚ) / 255 }) ∧
      (∀ kr kg kb ka : ℕ, kr ≤ 255 → kg ≤ 255 → kb ≤ 255 → ka ≤ 255 →
        Color.fromString (Color.toString
            ⟨(kr : ℚ) / 255, (kg : ℚ) / 255, (kb : ℚ) / 255,
              (ka : ℚ) / 255⟩ true) =
          { r := (kr : ℚ) / 255, g := (kg : ℚ) / 255,
            b := (kb : ℚ) / 255, a := (ka : ℚ) / 255 }) := by
  have hmain : ∀ c : Color, 0 ≤ c.r → c.r ≤ 1 → 0 ≤ c.g → c.g ≤ 1 →
      0 ≤ c.b → c.b ≤ 1 → 0 ≤ c.a → c.a ≤ 1 →
      ¬(31 / 510 ≤ c.a ∧ c.a < 16 / 255) →
      Color.fromString (Color.toString c true) =
        { r := ((jsRound (c.r * 255)).toNat : ℚ) / 255,
          g := ((jsRound (c.g * 255)).toNat : ℚ) / 255,
          b := ((jsRound (c.b * 255)).toNat : ℚ) / 255,
          a := ((jsRound (c.a * 255)).toNat : ℚ) / 255 } := by
    intro c hr0 hr1 hg0 hg1 hb0 hb1 ha0 ha1 hbug
    obtain ⟨hrI0, hrI1⟩ := jsRound_byte_bounds c.r hr0 hr1
    obtain ⟨hgI0, hgI1⟩ := jsRound_byte_bounds c.g hg0 hg1
    obtain ⟨hbI0, hbI1⟩ := jsRound_byte_bounds c.b hb0 hb1
    obtain ⟨haI0, haI1⟩ := jsRound_byte_bounds c.a ha0 ha1
    have hrN : (jsRound (c.r * 255)).toNat < 256 := by omega
    have hgN : (jsRound (c.g * 255)).toNat < 256 := by omega
    have hbN : (jsRound (c.b * 255)).toNat < 256 := by omega
    have haN : (jsRound (c.a * 255)).toNat < 256 := by omega
    have hNnat : (2 ^ 24 + jsRound (c.r * 255) * 2 ^ 16 +
        jsRound (c.g * 255) * 2 ^ 8 + jsRound (c.b * 255)).toNat =
        2 ^ 24 + (jsRound (c.r * 255)).toNat * 2 ^ 16 +
          (jsRound (c.g * 255)).toNat * 2 ^ 8 +
          (jsRound (c.b * 255)).toNat := by
      omega
    obtain ⟨hrgblen, hrgbval, hrgbhex⟩ :=
      natToHexChars_rgb
        (2 ^ 24 + (jsRound (c.r * 255)).toNat * 2 ^ 16 +
          (jsRound (c.g * 255)).toNat * 2 ^ 8 + (jsRound (c.b * 255)).toNat)
        (by omega) (by norm_num; omega)
    have hrgbval' :
        hexListVal ((natToHexChars
            (2 ^ 24 + (jsRound (c.r * 255)).toNat * 2 ^ 16 +
              (jsRound (c.g * 255)).toNat * 2 ^ 8 +
              (jsRound (c.b * 255)).toNat)).drop 1) =
          (jsRound (c.r * 255)).toNat * 2 ^ 16 +
            (jsRound (c.g * 255)).toNat * 2 ^ 8 +
            (jsRound (c.b * 255)).toNat := by
      rw [hrgbval]
      omega
    by_cases hpad : c.a < 16 / 255
    · have hasmall : c.a < 31 / 510 := by
        by_contra hge
        exact hbug ⟨le_of_not_lt hge, hpad⟩
      have haI16 : jsRound (c.a * 255) < 16 := by
        unfold jsRound
        rw [Int.floor_lt]
        push_cast
        linarith
      have hafsmall : natToHexChars (jsRound (c.a * 255)).toNat =
          [hexDigitChar (jsRound (c.a * 255)).toNat] :=
        natToHexChars_small _ (by omega)
      simp only [Color.toString, if_true]
      rw [if_pos hpad, hNnat, hafsmall, List.cons_append]
      refine fromString_mk_bytes _ _
        (jsRound (c.r * 255)).toNat (jsRound (c.g * 255)).toNat
        (jsRound (c.b * 255)).toNat (jsRound (c.a * 255)).toNat
        hrN hgN hbN haN hrgblen hrgbval' hrgbhex rfl ?_ ?_
      · rw [hexListVal_cons, hexListVal_cons]
        rw [hexDigitVal_hexDigitChar _ (by omega)]
        rw [show hexDigitVal ('0') = 0 from by decide]
        simp [hexListVal]
      · intro ch hch
        rcases List.mem_cons.1 hch with rfl | hch
        · decide
        · simp only [List.mem_singleton] at hch
          exact hch ▸ isHexDigit_hexDigitChar _ (by omega)
    · have hage : 16 / 255 ≤ c.a := le_of_not_lt hpad
      have haI16 : 16 ≤ jsRound (c.a * 255) := by
        unfold jsRound
        rw [Int.le_floor]
        push_cast
        linarith
      have haflen : (natToHexChars (jsRound (c.a * 255)).toNat).length = 2 := by
        have := hexCharsAux_length 1 20 (jsRound (c.a * 255)).toNat
          (by norm_num; omega) (by norm_num; omega) (by norm_num)
        simpa [natToHexChars] using this
      have hafval : hexListVal (natToHexChars (jsRound (c.a * 255)).toNat) =
          (jsRound (c.a * 255)).toNat := by
        have := hexCharsAux_val 20 (jsRound (c.a * 255)).toNat
          (by norm_num; omega)
        simpa [natToHexChars] using this
      have hafhex : ∀ ch ∈ natToHexChars (jsRound (c.a * 255)).toNat,
          isHexDigit ch = true := fun ch hch =>
        hexCharsAux_isHex 20 _ ch hch
      simp only [Color.toString, if_true]
      rw [if_neg hpad, hNnat, List.cons_append]
      exact fromString_mk_bytes _ _
        (jsRound (c.r * 255)).toNat (jsRound (c.g * 255)).toNat
        (jsRound (c.b * 255)).toNat (jsRound (c.a * 255)).toNat
        hrN hgN hbN haN hrgblen hrgbval' hrgbhex haflen hafval hafhex
  refine ⟨hmain, ?_⟩
  intro kr kg kb ka hkr hkg hkb hka
  have hb01 : ∀ k : ℕ, k ≤ 255 → (0 : ℚ) ≤ (k : ℚ) / 255 ∧
      (k : ℚ) / 255 ≤ 1 := by
    intro k hk
    constructor
    · positivity
    · rw [div_le_one (by norm_num : (0 : ℚ) < 255)]
      exact_mod_cast hk
  obtain ⟨hkr0, hkr1⟩ := hb01 kr hkr
  obtain ⟨hkg0, hkg1⟩ := hb01 kg hkg
  obtain ⟨hkb0, hkb1⟩ := hb01 kb hkb
  obtain ⟨hka0, hka1⟩ := hb01 ka hka
  have hbug : ¬(31 / 510 ≤ (ka : ℚ) / 255 ∧ (ka : ℚ) / 255 < 16 / 255) := by
    rintro ⟨hlo, hhi⟩
    have h16 : (ka : ℚ) < 16 := by linarith
    have h16n : ka < 16 := by exact_mod_cast h16
    have h15 : (ka : ℚ) ≤ 15 := by exact_mod_cast Nat.lt_succ_iff.mp h16n
    linarith
  have h := hmain ⟨(kr : ℚ) / 255, (kg : ℚ) / 255, (kb : ℚ) / 255,
      (ka : ℚ) / 255⟩ hkr0 hkr1 hkg0 hkg1 hkb0 hkb1 hka0 hka1 hbug
  simpa only [jsRound_byte, Int.toNat_natCast] using h

/-- Witness for C9's amended claim: the general part at the color
`(1, 1/2, 0, 1/3)` and the byte-valued part at `(255, 128, 0, 17)`. -/
theorem fromString_toString_roundTrip_witness :
    Color.fromString (Color.toString ⟨1, 1 / 2, 0, 1 / 3⟩ true) =
        { r := ((jsRound ((1 : ℚ) * 255)).toNat : ℚ) / 255,
          g := ((jsRound ((1 / 2 : ℚ) * 255)).toNat : ℚ) / 255,
          b := ((jsRound ((0 : ℚ) * 255)).toNat : ℚ) / 255,
          a := ((jsRound ((1 / 3 : ℚ) * 255)).toNat : ℚ) / 255 } ∧
      Color.fromString (Color.toString
          ⟨((255 : ℕ) : ℚ) / 255, ((128 : ℕ) : ℚ) / 255,
            ((0 : ℕ) : ℚ) / 255, ((17 : ℕ) : ℚ) / 255⟩ true) =
        { r := ((255 : ℕ) : ℚ) / 255, g := ((128 : ℕ) : ℚ) / 255,
          b := ((0 : ℕ) : ℚ) / 255, a := ((17 : ℕ) : ℚ) / 255 } :=
  ⟨fromString_toString_roundTrip.1 ⟨1, 1 / 2, 0, 1 / 3⟩
      (by norm_num) (by norm_num) (by norm_num) (by norm_num)
      (by norm_num) (by norm_num) (by norm_num) (by norm_num)
      (by rintro ⟨_, hhi⟩; norm_num at hhi),
    fromString_toString_roundTrip.2 255 128 0 17
      (by norm_num) (by norm_num) (by norm_num) (by norm_num)⟩

end Engine
